import Mathlib

/-!
Verification of the local-update / sufficient-statistics engine of
bnpy/allocmodel/relational/FiniteAssortativeMMSB.py (assortative
mixed-membership stochastic blockmodel).

The numerical arrays of the Python source are embedded as functions over
Fin-indexed types into the reals.  Each definition below names the source
variable it embeds and the source lines it is translated from.  The local
responsibility engine is parameterized by the expected log mixture matrix
ElogPi (which the method obtains from self.E_logPi() at line 82), the
background rate epsilon, and the precomputed edge log likelihood matrix
LP[E_log_soft_ev], exactly the inputs named by the specification of
computeLocalParams.
-/

noncomputable section
namespace AMMSB

open Finset

/-- Graph dataset collaborator (GraphData): E directed edges over V nodes,
edge e runs from node (src e) to node (rcv e), with a dense observation
matrix X of shape E x D.  Corresponds to Data.edges[:,0], Data.edges[:,1]
and Data.X in the source (the sparse-data branch of the naive oracle
raises NotImplementedError, so only dense data is modelled). -/
structure GraphData (V E D : ℕ) where
  src : Fin E → Fin V
  rcv : Fin E → Fin V
  X : Fin E → Fin D → ℝ

/-- Product Data.getSparseSrcNodeMat() * M of the sparse V x E source
incidence matrix with an E x K matrix M: entry (v,k) sums M e k over the
edges e whose source node is v. -/
def srcMatMul {V E D K : ℕ} (Data : GraphData V E D)
    (M : Fin E → Fin K → ℝ) (v : Fin V) (k : Fin K) : ℝ :=
  ∑ e, if Data.src e = v then M e k else 0

/-- Product Data.getSparseRcvNodeMat() * M of the sparse V x E receiver
incidence matrix with an E x K matrix M: entry (v,k) sums M e k over the
edges e whose receiver node is v. -/
def rcvMatMul {V E D K : ℕ} (Data : GraphData V E D)
    (M : Fin E → Fin K → ℝ) (v : Fin V) (k : Fin K) : ℝ :=
  ∑ e, if Data.rcv e = v then M e k else 0

/-- Input bundle of the local responsibility engine (calc_local_params and
_calc_local_params_Naive):  the dataset, the expected log mixture weights
ElogPi (the value of self.E_logPi(), line 82), the scalar background rate
eps (self.epsilon) and slev, the E x K matrix LP[E_log_soft_ev]. -/
structure Inputs (V E D K : ℕ) where
  data : GraphData V E D
  ElogPi : Fin V → Fin K → ℝ
  eps : ℝ
  slev : Fin E → Fin K → ℝ

variable {V E D K : ℕ}

/-- Lines 86-89: logepsEvVec[e] = sum_d log(eps)*X[e,d] + log(1-eps)*(1-X[e,d]),
the log likelihood that edge e was generated by the background state. -/
def logepsEvVec (I : Inputs V E D K) (e : Fin E) : ℝ :=
  ∑ d, (Real.log I.eps * I.data.X e d + Real.log (1 - I.eps) * (1 - I.data.X e d))

/-- Line 90: epsEvVec = exp(logepsEvVec). -/
def epsEvVec (I : Inputs V E D K) (e : Fin E) : ℝ :=
  Real.exp (logepsEvVec I e)

/-- Lines 93-96: the unnormalized foreground responsibility
exp(ElogPi[s,k] + ElogPi[t,k] + E_log_soft_ev[e,k]) for edge e = (s,t)
(the array named resp in the source before it is normalized in line 115). -/
def respUnnorm (I : Inputs V E D K) (e : Fin E) (k : Fin K) : ℝ :=
  Real.exp (I.ElogPi (I.data.src e) k + I.ElogPi (I.data.rcv e) k + I.slev e k)

/-- Line 98: expElogPi = exp(ElogPi), written pi[v,k] in the spec. -/
def expElogPi (I : Inputs V E D K) (v : Fin V) (k : Fin K) : ℝ :=
  Real.exp (I.ElogPi v k)

/-- Lines 102-104: sumPi_fg[e] = sum_k pi[s,k]*pi[t,k] for edge e = (s,t). -/
def sumPi_fg (I : Inputs V E D K) (e : Fin E) : ℝ :=
  ∑ k, expElogPi I (I.data.src e) k * expElogPi I (I.data.rcv e) k

/-- Line 107: sumexpElogPi[v] = sum_k pi[v,k]. -/
def sumexpElogPi (I : Inputs V E D K) (v : Fin V) : ℝ :=
  ∑ k, expElogPi I v k

/-- Lines 108-109: sumPi[e] = sumexpElogPi[s] * sumexpElogPi[t]
= sum_{j,k} pi[s,j]*pi[t,k] for edge e = (s,t). -/
def sumPi (I : Inputs V E D K) (e : Fin E) : ℝ :=
  sumexpElogPi I (I.data.src e) * sumexpElogPi I (I.data.rcv e)

/-- Lines 112-113: respNormConst[e] = sum_k respUnnorm[e,k]
+ (sumPi[e] - sumPi_fg[e]) * epsEvVec[e], the per-edge normalization
constant Z[e] of the spec. -/
def respNormConst (I : Inputs V E D K) (e : Fin E) : ℝ :=
  (∑ k, respUnnorm I e k) + (sumPi I e - sumPi_fg I e) * epsEvVec I e

/-- Lines 115-117: LP[resp][e,k] = max(respUnnorm[e,k]/respNormConst[e], 1e-100),
the normalized foreground responsibility with the small positive floor. -/
def resp (I : Inputs V E D K) (e : Fin E) (k : Fin K) : ℝ :=
  max (respUnnorm I e k / respNormConst I e) 1e-100

/-- Lines 120-121: LP[resp_bg][e] = 1 - sum_k resp[e,k]. -/
def resp_bg (I : Inputs V E D K) (e : Fin E) : ℝ :=
  1 - ∑ k, resp I e k

/-- Line 128: the in-place update epsEvVec /= respNormConst. -/
def epsEvN (I : Inputs V E D K) (e : Fin E) : ℝ :=
  epsEvVec I e / respNormConst I e

/-- Line 129: expElogPi_bg[v,k] = sumexpElogPi[v] - expElogPi[v,k]. -/
def expElogPi_bg (I : Inputs V E D K) (v : Fin V) (k : Fin K) : ℝ :=
  sumexpElogPi I v - expElogPi I v k

/-- Lines 130-132: srcresp_bg[e,k] = (epsEvVec[e]/respNormConst[e])
* expElogPi[s,k] * expElogPi_bg[t,k] for edge e = (s,t). -/
def srcresp_bg (I : Inputs V E D K) (e : Fin E) (k : Fin K) : ℝ :=
  epsEvN I e * expElogPi I (I.data.src e) k * expElogPi_bg I (I.data.rcv e) k

/-- Lines 133-135: rcvresp_bg[e,k] = (epsEvVec[e]/respNormConst[e])
* expElogPi[t,k] * expElogPi_bg[s,k] for edge e = (s,t). -/
def rcvresp_bg (I : Inputs V E D K) (e : Fin E) (k : Fin K) : ℝ :=
  epsEvN I e * expElogPi I (I.data.rcv e) k * expElogPi_bg I (I.data.src e) k

/-- Lines 139-141: NodeStateCount_bg = SrcNodeMat * srcresp_bg +
RcvNodeMat * rcvresp_bg. -/
def NodeStateCount_bg (I : Inputs V E D K) (v : Fin V) (k : Fin K) : ℝ :=
  srcMatMul I.data (srcresp_bg I) v k + rcvMatMul I.data (rcvresp_bg I) v k

/-- Lines 143-144: NodeStateCount_fg = (SrcNodeMat + RcvNodeMat) * resp. -/
def NodeStateCount_fg (I : Inputs V E D K) (v : Fin V) (k : Fin K) : ℝ :=
  srcMatMul I.data (resp I) v k + rcvMatMul I.data (resp I) v k

/-- Line 145: LP[NodeStateCount] = NodeStateCount_bg + NodeStateCount_fg. -/
def NodeStateCount (I : Inputs V E D K) (v : Fin V) (k : Fin K) : ℝ :=
  NodeStateCount_bg I v k + NodeStateCount_fg I v k

/-- Line 146: LP[N_fg] = column sums of NodeStateCount_fg. -/
def N_fg (I : Inputs V E D K) (k : Fin K) : ℝ :=
  ∑ v, NodeStateCount_fg I v k

/-- Line 150: LP[Ldata_bg] = inner(resp_bg, logepsEvVec). -/
def Ldata_bg (I : Inputs V E D K) : ℝ :=
  ∑ e, resp_bg I e * logepsEvVec I e

/-- Modelled from the spec: calcRlogR from bnpy.util.NumericUtil is not under
src/; per the spec it is the column-wise x*log(x) reduction that treats
0*log(0) as 0 (in Lean, Real.log 0 = 0, so x * Real.log x is already 0 at 0). -/
def calcRlogR {E K : ℕ} (R : Fin E → Fin K → ℝ) (k : Fin K) : ℝ :=
  ∑ e, R e k * Real.log (R e k)

/-- Line 152: LP[Lentropy_fg] = -calcRlogR(LP[resp]). -/
def Lentropy_fg (I : Inputs V E D K) (k : Fin K) : ℝ :=
  -calcRlogR (resp I) k

/-- Lines 154-157: the alternative derivation of the foreground entropy that
the source cross-checks against Lentropy_fg with assert np.allclose:
- sum_v NodeStateCount_fg[v,k]*ElogPi[v,k] - sum_e resp[e,k]*E_log_soft_ev[e,k]
+ sum_e log(respNormConst[e])*resp[e,k]. -/
def Lentropy_fg_alt (I : Inputs V E D K) (k : Fin K) : ℝ :=
  -(∑ v, NodeStateCount_fg I v k * I.ElogPi v k) +
  -(∑ e, resp I e k * I.slev e k) +
  ∑ e, Real.log (respNormConst I e) * resp I e k

/-- Lines 172-175: LP[Lentropy_bg] =
- sum(NodeStateCount_bg * ElogPi) - Ldata_bg + inner(log(respNormConst), resp_bg). -/
def Lentropy_bg (I : Inputs V E D K) : ℝ :=
  -(∑ v, ∑ k, NodeStateCount_bg I v k * I.ElogPi v k) +
  -Ldata_bg I +
  ∑ e, Real.log (respNormConst I e) * resp_bg I e

/-! ### The naive O(E K^2) oracle, _calc_local_params_Naive (lines 285-361) -/

/-- Lines 307-324: the unnormalized naive responsibility tensor after the
in-place exponentiation of line 328: cell (e,k,l) holds
exp(ElogPi[s,k] + ElogPi[t,l] + c) where c is E_log_soft_ev[e,k] on the
diagonal k = l and logepsEvVec[e] off the diagonal. -/
def respN_unnorm (I : Inputs V E D K) (e : Fin E) (k l : Fin K) : ℝ :=
  Real.exp (I.ElogPi (I.data.src e) k + I.ElogPi (I.data.rcv e) l +
    (if k = l then I.slev e k else logepsEvVec I e))

/-- Line 329: respNormConst[e] = sum over all K x K cells of the
unnormalized tensor. -/
def respNormConstN (I : Inputs V E D K) (e : Fin E) : ℝ :=
  ∑ k, ∑ l, respN_unnorm I e k l

/-- Lines 331-333: respNormConst_fg[e] = sum of the unnormalized diagonal. -/
def respNormConst_fgN (I : Inputs V E D K) (e : Fin E) : ℝ :=
  ∑ k, respN_unnorm I e k k

/-- Lines 336-337: LP[resp][e,k,l] of the naive oracle, the normalized
E x K x K responsibility tensor. -/
def respN (I : Inputs V E D K) (e : Fin E) (k l : Fin K) : ℝ :=
  respN_unnorm I e k l / respNormConstN I e

/-- Lines 341-346: per-node foreground counts of the naive oracle,
aggregating the diagonal cells with both incidence operators. -/
def NodeStateCount_fgN (I : Inputs V E D K) (v : Fin V) (k : Fin K) : ℝ :=
  srcMatMul I.data (fun e k => respN I e k k) v k +
  rcvMatMul I.data (fun e k => respN I e k k) v k

/-- Lines 348-358: per-node background counts of the naive oracle; for state
k the source aggregates resp[:,k,:k].sum + resp[:,k,k+1:].sum (all cells in
row k off the diagonal) through the source incidence operator and the
symmetric column sums through the receiver incidence operator. -/
def NodeStateCount_bgN (I : Inputs V E D K) (v : Fin V) (k : Fin K) : ℝ :=
  srcMatMul I.data (fun e k => ∑ l ∈ Finset.univ.erase k, respN I e k l) v k +
  rcvMatMul I.data (fun e k => ∑ l ∈ Finset.univ.erase k, respN I e l k) v k

/-! ### Basic positivity facts -/

lemma respUnnorm_pos (I : Inputs V E D K) (e : Fin E) (k : Fin K) :
    0 < respUnnorm I e k := Real.exp_pos _

lemma epsEvVec_pos (I : Inputs V E D K) (e : Fin E) : 0 < epsEvVec I e :=
  Real.exp_pos _

lemma expElogPi_pos (I : Inputs V E D K) (v : Fin V) (k : Fin K) :
    0 < expElogPi I v k := Real.exp_pos _

/-- Expansion of the off-diagonal mass from the source side:
sumPi[e] - sumPi_fg[e] = sum_k pi[s,k] * (sumexpElogPi[t] - pi[t,k]). -/
lemma sumPi_sub_sumPi_fg_src (I : Inputs V E D K) (e : Fin E) :
    sumPi I e - sumPi_fg I e =
      ∑ k, expElogPi I (I.data.src e) k *
        (sumexpElogPi I (I.data.rcv e) - expElogPi I (I.data.rcv e) k) := by
  simp only [mul_sub, Finset.sum_sub_distrib, sumPi, sumPi_fg, sumexpElogPi,
    Finset.sum_mul]

/-- Expansion of the off-diagonal mass from the receiver side:
sumPi[e] - sumPi_fg[e] = sum_k pi[t,k] * (sumexpElogPi[s] - pi[s,k]). -/
lemma sumPi_sub_sumPi_fg_rcv (I : Inputs V E D K) (e : Fin E) :
    sumPi I e - sumPi_fg I e =
      ∑ k, expElogPi I (I.data.rcv e) k *
        (sumexpElogPi I (I.data.src e) - expElogPi I (I.data.src e) k) := by
  simp only [mul_sub, Finset.sum_sub_distrib, sumPi, sumPi_fg, sumexpElogPi,
    Finset.sum_mul]
  congr 1
  · rw [← Finset.sum_mul, ← Finset.sum_mul, mul_comm]
  · exact Finset.sum_congr rfl fun k _ => mul_comm _ _

lemma sumPi_sub_sumPi_fg_nonneg (I : Inputs V E D K) (e : Fin E) :
    0 ≤ sumPi I e - sumPi_fg I e := by
  rw [sumPi_sub_sumPi_fg_src]
  refine Finset.sum_nonneg fun k _ => ?_
  refine mul_nonneg (expElogPi_pos I _ k).le ?_
  have : expElogPi I (I.data.rcv e) k ≤ sumexpElogPi I (I.data.rcv e) :=
    Finset.single_le_sum (fun j _ => (expElogPi_pos I _ j).le) (Finset.mem_univ k)
  linarith

lemma respNormConst_pos [NeZero K] (I : Inputs V E D K) (e : Fin E) :
    0 < respNormConst I e := by
  have h1 : 0 < ∑ k, respUnnorm I e k :=
    Finset.sum_pos (fun k _ => respUnnorm_pos I e k) Finset.univ_nonempty
  have h2 : 0 ≤ (sumPi I e - sumPi_fg I e) * epsEvVec I e :=
    mul_nonneg (sumPi_sub_sumPi_fg_nonneg I e) (epsEvVec_pos I e).le
  unfold respNormConst
  linarith

/-- Off-diagonal cells of the naive unnormalized tensor factor as
pi[s,k] * pi[t,l] * epsEvVec[e]. -/
lemma respN_unnorm_offdiag (I : Inputs V E D K) (e : Fin E) {k l : Fin K}
    (h : k ≠ l) :
    respN_unnorm I e k l =
      expElogPi I (I.data.src e) k * expElogPi I (I.data.rcv e) l * epsEvVec I e := by
  unfold respN_unnorm expElogPi epsEvVec
  rw [if_neg h, ← Real.exp_add, ← Real.exp_add]

/-- Diagonal cells of the naive unnormalized tensor coincide with the
unnormalized foreground weights of the reduced algorithm. -/
lemma respN_unnorm_diag (I : Inputs V E D K) (e : Fin E) (k : Fin K) :
    respN_unnorm I e k k = respUnnorm I e k := by
  unfold respN_unnorm respUnnorm
  rw [if_pos rfl]

/-- Key normalization identity: the naive normalization constant over all
K x K cells equals the reduced O(K) normalization constant of line 112-113. -/
lemma respNormConstN_eq (I : Inputs V E D K) (e : Fin E) :
    respNormConstN I e = respNormConst I e := by
  have hrow : ∀ k : Fin K, ∑ l, respN_unnorm I e k l =
      respUnnorm I e k +
        expElogPi I (I.data.src e) k *
          (sumexpElogPi I (I.data.rcv e) - expElogPi I (I.data.rcv e) k) *
          epsEvVec I e := by
    intro k
    rw [← Finset.add_sum_erase Finset.univ _ (Finset.mem_univ k),
      respN_unnorm_diag]
    congr 1
    have : ∀ l ∈ Finset.univ.erase k, respN_unnorm I e k l =
        expElogPi I (I.data.src e) k * epsEvVec I e *
          expElogPi I (I.data.rcv e) l := by
      intro l hl
      rw [respN_unnorm_offdiag I e (Finset.ne_of_mem_erase hl).symm]
      ring
    rw [Finset.sum_congr rfl this, ← Finset.mul_sum,
      Finset.sum_erase_eq_sub (Finset.mem_univ k)]
    unfold sumexpElogPi
    ring
  unfold respNormConstN respNormConst
  rw [Finset.sum_congr rfl (fun k _ => hrow k), Finset.sum_add_distrib]
  congr 1
  have : ∀ k : Fin K, expElogPi I (I.data.src e) k *
      (sumexpElogPi I (I.data.rcv e) - expElogPi I (I.data.rcv e) k) *
      epsEvVec I e =
      (expElogPi I (I.data.src e) k * sumexpElogPi I (I.data.rcv e) -
        expElogPi I (I.data.src e) k * expElogPi I (I.data.rcv e) k) *
        epsEvVec I e := by
    intro k; ring
  rw [Finset.sum_congr rfl (fun k _ => this k), ← Finset.sum_mul]
  congr 1
  rw [Finset.sum_sub_distrib]
  unfold sumPi sumPi_fg sumexpElogPi
  rw [← Finset.sum_mul]

/-! ### C1: the reduced resp agrees with the diagonal of the naive tensor -/

/-- C1.  For every input of the local-update engine and every edge e and
community k, the foreground responsibility resp[e,k] produced by the reduced
O(E*K) calc_local_params equals the diagonal cell resp[e,k,k] of the full
E x K x K responsibility tensor produced by _calc_local_params_Naive on the
same input, within 1e-8 (exactly, except for the 1e-100 positivity floor of
line 116, which perturbs a cell by at most 1e-100). -/
theorem C1_resp_eq_naive_diag (I : Inputs V E D K) (e : Fin E) (k : Fin K) :
    |resp I e k - respN I e k k| ≤ 1e-8 := by
  haveI : NeZero K := ⟨(Fin.pos k).ne'⟩
  have hZ : 0 < respNormConst I e := respNormConst_pos I e
  have hdiag : respN I e k k = respUnnorm I e k / respNormConst I e := by
    unfold respN
    rw [respN_unnorm_diag, respNormConstN_eq]
  set x := respUnnorm I e k / respNormConst I e with hx
  have hxpos : 0 < x := div_pos (respUnnorm_pos I e k) hZ
  have hresp : resp I e k = max x 1e-100 := rfl
  rw [hdiag, hresp]
  have hnonneg : 0 ≤ max x 1e-100 - x := by
    have := le_max_left x (1e-100 : ℝ)
    linarith
  rw [abs_of_nonneg hnonneg]
  rcases le_total (1e-100 : ℝ) x with h | h
  · rw [max_eq_left h]
    norm_num
  · rw [max_eq_right h]
    have : (1e-100 : ℝ) ≤ 1e-8 := by norm_num
    linarith

/-! ### C4: per-edge probability conservation and positivity -/

/-- Concrete two-node, one-edge, one-attribute dataset: the single edge runs
from node 0 to node 1 and its observation is 1. -/
def dataA : GraphData 2 1 1 where
  src := fun _ => 0
  rcv := fun _ => 1
  X := fun _ _ => 1

/-- Concrete input on dataA with K = 2 exhibiting the 1e-100 floor: the
expected log mixture weight of node 0 in community 1 is log(1e-200), the
background rate is 1e-200, and the edge log likelihood is zero. -/
def Icex4 : Inputs 2 1 1 2 where
  data := dataA
  ElogPi := fun v k => if v = 0 ∧ k = 1 then Real.log 1e-200 else 0
  eps := 1e-200
  slev := fun _ _ => 0

lemma Icex4_respUnnorm_zero : respUnnorm Icex4 0 0 = 1 := by
  simp [respUnnorm, Icex4, dataA]

lemma Icex4_respUnnorm_one : respUnnorm Icex4 0 1 = 1e-200 := by
  simp [respUnnorm, Icex4, dataA]
  exact Real.exp_log (by norm_num)

lemma Icex4_epsEvVec : epsEvVec Icex4 0 = 1e-200 := by
  have h : logepsEvVec Icex4 0 = Real.log 1e-200 := by
    simp [logepsEvVec, Icex4, dataA]
  rw [epsEvVec, h]
  exact Real.exp_log (by norm_num)

lemma Icex4_respNormConst :
    respNormConst Icex4 0 = (1 + 1e-200) * (1 + 1e-200) := by
  have hlog : Real.exp (Real.log (1e-200 : ℝ)) = 1e-200 :=
    Real.exp_log (by norm_num)
  have h0 : sumexpElogPi Icex4 0 = 1 + 1e-200 := by
    simp [sumexpElogPi, expElogPi, Icex4, Fin.sum_univ_two, hlog]
  have h1 : sumexpElogPi Icex4 1 = 2 := by
    simp [sumexpElogPi, expElogPi, Icex4, Fin.sum_univ_two]
  have hfg : sumPi_fg Icex4 0 = 1 + 1e-200 := by
    simp [sumPi_fg, expElogPi, Icex4, dataA, Fin.sum_univ_two, hlog]
  have hPi : sumPi Icex4 0 = (1 + 1e-200) * 2 := by
    have hsrc : Icex4.data.src 0 = 0 := rfl
    have hrcv : Icex4.data.rcv 0 = 1 := rfl
    rw [sumPi, hsrc, hrcv, h0, h1]
  rw [respNormConst, Fin.sum_univ_two, Icex4_respUnnorm_zero,
    Icex4_respUnnorm_one, hPi, hfg, Icex4_epsEvVec]
  ring

/-- C4 counterexample.  On the concrete input Icex4 the background
responsibility of the single edge is strictly negative: the 1e-100 floor of
line 116 inflates the foreground responsibility of community 1 from about
1e-200 to 1e-100, so the row sum of LP[resp] exceeds 1 and
LP[resp_bg] = 1 - sum falls below zero.  This refutes the unqualified
claim that resp_bg[e] is always nonnegative. -/
theorem C4_counterexample : resp_bg Icex4 0 < 0 := by
  have hZ : (0 : ℝ) < (1 + 1e-200) * (1 + 1e-200) := by norm_num
  have h0 : (1e-100 : ℝ) ≤ 1 / ((1 + 1e-200) * (1 + 1e-200)) := by
    rw [le_div_iff₀ hZ]
    norm_num
  have h1 : (1e-200 : ℝ) / ((1 + 1e-200) * (1 + 1e-200)) ≤ 1e-100 := by
    rw [div_le_iff₀ hZ]
    norm_num
  rw [resp_bg, Fin.sum_univ_two]
  unfold resp
  rw [Icex4_respUnnorm_zero, Icex4_respUnnorm_one, Icex4_respNormConst,
    max_eq_left h0, max_eq_right h1]
  have key : (1 - 1e-100 : ℝ) < 1 / ((1 + 1e-200) * (1 + 1e-200)) := by
    rw [lt_div_iff₀ hZ]
    norm_num
  linarith

/-- C4 as amended.  For every input and edge, the row of local parameters
conserves probability exactly, sum_k resp[e,k] + resp_bg[e] = 1, and every
resp[e,k] is nonnegative (it is at least the 1e-100 floor); the background
responsibility resp_bg[e] is nonnegative whenever the 1e-100 floor of line
116 is inactive on that row, i.e. whenever every unnormalized-over-Z ratio
is already at least 1e-100 (the counterexample shows this qualification is
necessary). -/
theorem C4_conservation (I : Inputs V E D K) (e : Fin E)
    (h : ∀ k, (1e-100 : ℝ) ≤ respUnnorm I e k / respNormConst I e) :
    (∑ k, resp I e k) + resp_bg I e = 1 ∧
    (∀ k, 0 ≤ resp I e k) ∧
    0 ≤ resp_bg I e := by
  refine ⟨by rw [resp_bg]; ring, fun k => le_trans (by norm_num) (le_max_right _ _), ?_⟩
  have hmax : ∀ k, resp I e k = respUnnorm I e k / respNormConst I e :=
    fun k => max_eq_left (h k)
  rcases isEmpty_or_nonempty (Fin K) with hK | hK
  · rw [resp_bg]
    rw [Finset.univ_eq_empty, Finset.sum_empty]
    norm_num
  · obtain ⟨k0⟩ := hK
    haveI : NeZero K := ⟨(Fin.pos k0).ne'⟩
    have hZ : 0 < respNormConst I e := respNormConst_pos I e
    have hsum : ∑ k, resp I e k = (∑ k, respUnnorm I e k) / respNormConst I e := by
      rw [Finset.sum_congr rfl (fun k _ => hmax k), Finset.sum_div]
    rw [resp_bg, hsum, sub_nonneg, div_le_one hZ]
    have := mul_nonneg (sumPi_sub_sumPi_fg_nonneg I e) (epsEvVec_pos I e).le
    rw [respNormConst]
    linarith

/-- Concrete symmetric input on dataA with K = 2: all expected log mixture
weights are 0, the background rate is 1/2 and the edge log likelihood is 0;
every normalized foreground responsibility is exactly 1/3. -/
def Isym : Inputs 2 1 1 2 where
  data := dataA
  ElogPi := fun _ _ => 0
  eps := 1/2
  slev := fun _ _ => 0

lemma Isym_respNormConst : respNormConst Isym 0 = 3 := by
  have heps : epsEvVec Isym 0 = 1/2 := by
    have h : logepsEvVec Isym 0 = Real.log (1/2) := by
      simp [logepsEvVec, Isym, dataA]
    rw [epsEvVec, h]
    exact Real.exp_log (by norm_num)
  have hu : ∀ k, respUnnorm Isym 0 k = 1 := by
    intro k
    simp [respUnnorm, Isym, dataA]
  have hs : ∀ v, sumexpElogPi Isym v = 2 := by
    intro v
    simp [sumexpElogPi, expElogPi, Isym, Fin.sum_univ_two]
  have hfg : sumPi_fg Isym 0 = 2 := by
    simp [sumPi_fg, expElogPi, Isym, dataA, Fin.sum_univ_two]
  rw [respNormConst, Fin.sum_univ_two, hu, hu, sumPi, hs, hs, hfg, heps]
  norm_num

lemma Isym_ratio (k : Fin 2) :
    respUnnorm Isym 0 k / respNormConst Isym 0 = 1/3 := by
  have hu : respUnnorm Isym 0 k = 1 := by
    simp [respUnnorm, Isym, dataA]
  rw [hu, Isym_respNormConst]

/-- C4 witness: on the concrete symmetric input Isym the floor is inactive
(every ratio is 1/3) and the amended conservation statement holds. -/
theorem C4_conservation_witness :
    (∀ k, (1e-100 : ℝ) ≤ respUnnorm Isym 0 k / respNormConst Isym 0) ∧
    ((∑ k, resp Isym 0 k) + resp_bg Isym 0 = 1 ∧
      (∀ k, 0 ≤ resp Isym 0 k) ∧ 0 ≤ resp_bg Isym 0) := by
  have h : ∀ k, (1e-100 : ℝ) ≤ respUnnorm Isym 0 k / respNormConst Isym 0 := by
    intro k
    rw [Isym_ratio]
    norm_num
  exact ⟨h, C4_conservation Isym 0 h⟩

/-! ### Incidence aggregation lemmas -/

/-- Weighted aggregation through the source incidence operator: summing
(SrcNodeMat * M)[v,k] * w[v,k] over nodes reassociates to a sum over edges
weighted at each edge's source node. -/
lemma srcMatMul_weight (Data : GraphData V E D) (M : Fin E → Fin K → ℝ)
    (w : Fin V → Fin K → ℝ) (k : Fin K) :
    ∑ v, srcMatMul Data M v k * w v k = ∑ e, M e k * w (Data.src e) k := by
  simp only [srcMatMul, Finset.sum_mul, ite_mul, zero_mul]
  rw [Finset.sum_comm]
  simp [Finset.sum_ite_eq]

/-- Weighted aggregation through the receiver incidence operator. -/
lemma rcvMatMul_weight (Data : GraphData V E D) (M : Fin E → Fin K → ℝ)
    (w : Fin V → Fin K → ℝ) (k : Fin K) :
    ∑ v, rcvMatMul Data M v k * w v k = ∑ e, M e k * w (Data.rcv e) k := by
  simp only [rcvMatMul, Finset.sum_mul, ite_mul, zero_mul]
  rw [Finset.sum_comm]
  simp [Finset.sum_ite_eq]

/-- Column sums through the source incidence operator: every edge has
exactly one source node. -/
lemma srcMatMul_colsum (Data : GraphData V E D) (M : Fin E → Fin K → ℝ)
    (k : Fin K) : ∑ v, srcMatMul Data M v k = ∑ e, M e k := by
  have h := srcMatMul_weight Data M (fun _ _ => 1) k
  simpa using h

/-- Column sums through the receiver incidence operator. -/
lemma rcvMatMul_colsum (Data : GraphData V E D) (M : Fin E → Fin K → ℝ)
    (k : Fin K) : ∑ v, rcvMatMul Data M v k = ∑ e, M e k := by
  have h := rcvMatMul_weight Data M (fun _ _ => 1) k
  simpa using h

/-! ### C3: count conservation in the sufficient statistics -/

/-- Row sums of the source-side background responsibility matrix of
lines 130-132. -/
lemma srcresp_bg_rowsum (I : Inputs V E D K) (e : Fin E) :
    ∑ k, srcresp_bg I e k = epsEvN I e * (sumPi I e - sumPi_fg I e) := by
  unfold srcresp_bg expElogPi_bg
  simp only [mul_assoc]
  rw [← Finset.mul_sum]
  congr 1
  rw [sumPi_sub_sumPi_fg_src]

/-- Row sums of the receiver-side background responsibility matrix of
lines 133-135. -/
lemma rcvresp_bg_rowsum (I : Inputs V E D K) (e : Fin E) :
    ∑ k, rcvresp_bg I e k = epsEvN I e * (sumPi I e - sumPi_fg I e) := by
  unfold rcvresp_bg expElogPi_bg
  simp only [mul_assoc]
  rw [← Finset.mul_sum]
  congr 1
  rw [sumPi_sub_sumPi_fg_rcv]

/-- When every foreground responsibility row sums to one and the 1e-100
floor is inactive, the unnormalized weights already sum to the
normalization constant, so the collapsed off-diagonal mass of each edge
vanishes. -/
lemma offdiag_mass_eq_zero (I : Inputs V E D K)
    (h1 : ∀ e, ∑ k, resp I e k = 1)
    (h2 : ∀ e k, (1e-100 : ℝ) ≤ respUnnorm I e k / respNormConst I e)
    (e : Fin E) : (sumPi I e - sumPi_fg I e) * epsEvVec I e = 0 := by
  rcases isEmpty_or_nonempty (Fin K) with hK | hK
  · exfalso
    have h := h1 e
    rw [Finset.univ_eq_empty, Finset.sum_empty] at h
    norm_num at h
  · obtain ⟨k0⟩ := hK
    haveI : NeZero K := ⟨(Fin.pos k0).ne'⟩
    have hZ : 0 < respNormConst I e := respNormConst_pos I e
    have hmax : ∀ k, resp I e k = respUnnorm I e k / respNormConst I e :=
      fun k => max_eq_left (h2 e k)
    have hx : ∑ k, resp I e k =
        (∑ k, respUnnorm I e k) / respNormConst I e := by
      rw [Finset.sum_congr rfl (fun k _ => hmax k), Finset.sum_div]
    have h := h1 e
    rw [hx, div_eq_one_iff_eq hZ.ne'] at h
    unfold respNormConst at h
    linarith

/-- C3.  When every row of the foreground responsibilities fully explains
its edge (sum_k resp[e,k] = 1 with the positivity floor inactive, i.e. no
probability mass is reserved for the background or for anything outside the
model), the total NodeStateCount stored into the sufficient-statistics bag
by get_global_suff_stats (the field set on line 226 from line 145) sums,
over all nodes and communities, to exactly 2*E. -/
theorem C3_count_conservation (I : Inputs V E D K)
    (h1 : ∀ e, ∑ k, resp I e k = 1)
    (h2 : ∀ e k, (1e-100 : ℝ) ≤ respUnnorm I e k / respNormConst I e) :
    ∑ v, ∑ k, NodeStateCount I v k = 2 * (E : ℝ) := by
  have hterm : ∀ e : Fin E, epsEvN I e * (sumPi I e - sumPi_fg I e) = 0 := by
    intro e
    unfold epsEvN
    rw [div_mul_eq_mul_div, mul_comm (epsEvVec I e) (sumPi I e - sumPi_fg I e),
      offdiag_mass_eq_zero I h1 h2 e, zero_div]
  have hbgsrc : ∑ v, ∑ k, srcMatMul I.data (srcresp_bg I) v k = 0 := by
    rw [Finset.sum_comm]
    calc ∑ k, ∑ v, srcMatMul I.data (srcresp_bg I) v k
        = ∑ k, ∑ e, srcresp_bg I e k :=
          Finset.sum_congr rfl fun k _ => srcMatMul_colsum _ _ k
      _ = ∑ e, ∑ k, srcresp_bg I e k := Finset.sum_comm
      _ = 0 := Finset.sum_eq_zero fun e _ => by
          rw [srcresp_bg_rowsum, hterm]
  have hbgrcv : ∑ v, ∑ k, rcvMatMul I.data (rcvresp_bg I) v k = 0 := by
    rw [Finset.sum_comm]
    calc ∑ k, ∑ v, rcvMatMul I.data (rcvresp_bg I) v k
        = ∑ k, ∑ e, rcvresp_bg I e k :=
          Finset.sum_congr rfl fun k _ => rcvMatMul_colsum _ _ k
      _ = ∑ e, ∑ k, rcvresp_bg I e k := Finset.sum_comm
      _ = 0 := Finset.sum_eq_zero fun e _ => by
          rw [rcvresp_bg_rowsum, hterm]
  have hfgsrc : ∑ v, ∑ k, srcMatMul I.data (resp I) v k = (E : ℝ) := by
    rw [Finset.sum_comm]
    calc ∑ k, ∑ v, srcMatMul I.data (resp I) v k
        = ∑ k, ∑ e, resp I e k :=
          Finset.sum_congr rfl fun k _ => srcMatMul_colsum _ _ k
      _ = ∑ e, ∑ k, resp I e k := Finset.sum_comm
      _ = ∑ _e : Fin E, (1 : ℝ) := Finset.sum_congr rfl fun e _ => h1 e
      _ = (E : ℝ) := by simp
  have hfgrcv : ∑ v, ∑ k, rcvMatMul I.data (resp I) v k = (E : ℝ) := by
    rw [Finset.sum_comm]
    calc ∑ k, ∑ v, rcvMatMul I.data (resp I) v k
        = ∑ k, ∑ e, resp I e k :=
          Finset.sum_congr rfl fun k _ => rcvMatMul_colsum _ _ k
      _ = ∑ e, ∑ k, resp I e k := Finset.sum_comm
      _ = ∑ _e : Fin E, (1 : ℝ) := Finset.sum_congr rfl fun e _ => h1 e
      _ = (E : ℝ) := by simp
  unfold NodeStateCount NodeStateCount_bg NodeStateCount_fg
  simp only [Finset.sum_add_distrib]
  rw [hbgsrc, hbgrcv, hfgsrc, hfgrcv]
  ring

/-- Concrete degenerate input with K = 1 on dataA: one community, zero
expected log mixture weights, background rate 1/2, zero edge log
likelihood; the single foreground responsibility is exactly 1. -/
def Ione : Inputs 2 1 1 1 where
  data := dataA
  ElogPi := fun _ _ => 0
  eps := 1/2
  slev := fun _ _ => 0

lemma Ione_ratio : respUnnorm Ione 0 0 / respNormConst Ione 0 = 1 := by
  have hu : respUnnorm Ione 0 0 = 1 := by
    simp [respUnnorm, Ione, dataA]
  have hZ : respNormConst Ione 0 = 1 := by
    simp [respNormConst, respUnnorm, sumPi, sumPi_fg, sumexpElogPi, expElogPi,
      Ione, dataA, Fin.sum_univ_one]
  rw [hu, hZ]
  norm_num

/-- C3 witness: on the concrete K = 1 input Ione every responsibility row
sums to one with the floor inactive, and the node-state counts sum to 2*E. -/
theorem C3_count_conservation_witness :
    (∀ e, ∑ k, resp Ione e k = 1) ∧
    ∑ v, ∑ k, NodeStateCount Ione v k = 2 * ((1 : ℕ) : ℝ) := by
  have h1 : ∀ e : Fin 1, ∑ k, resp Ione e k = 1 := by
    intro e
    have he : e = 0 := Subsingleton.elim e 0
    rw [he, Fin.sum_univ_one]
    unfold resp
    rw [Ione_ratio]
    exact max_eq_left (by norm_num)
  have h2 : ∀ (e : Fin 1) (k : Fin 1),
      (1e-100 : ℝ) ≤ respUnnorm Ione e k / respNormConst Ione e := by
    intro e k
    have he : e = 0 := Subsingleton.elim e 0
    have hk : k = 0 := Subsingleton.elim k 0
    rw [he, hk, Ione_ratio]
    norm_num
  exact ⟨h1, C3_count_conservation Ione h1 h2⟩

/-! ### Relating the collapsed background quantities to the naive tensor -/

lemma respN_diag (I : Inputs V E D K) (e : Fin E) (k : Fin K) :
    respN I e k k = respUnnorm I e k / respNormConst I e := by
  unfold respN
  rw [respN_unnorm_diag, respNormConstN_eq]

/-- Row k of the unnormalized naive tensor, off the diagonal, sums to
pi[s,k] * (sumexpElogPi[t] - pi[t,k]) * epsEvVec[e]. -/
lemma offdiag_row_unnorm (I : Inputs V E D K) (e : Fin E) (k : Fin K) :
    ∑ l ∈ Finset.univ.erase k, respN_unnorm I e k l =
      expElogPi I (I.data.src e) k *
        (sumexpElogPi I (I.data.rcv e) - expElogPi I (I.data.rcv e) k) *
        epsEvVec I e := by
  have h : ∀ l ∈ Finset.univ.erase k, respN_unnorm I e k l =
      expElogPi I (I.data.src e) k * epsEvVec I e *
        expElogPi I (I.data.rcv e) l := by
    intro l hl
    rw [respN_unnorm_offdiag I e (Finset.ne_of_mem_erase hl).symm]
    ring
  rw [Finset.sum_congr rfl h, ← Finset.mul_sum,
    Finset.sum_erase_eq_sub (Finset.mem_univ k)]
  unfold sumexpElogPi
  ring

/-- Column k of the unnormalized naive tensor, off the diagonal, sums to
pi[t,k] * (sumexpElogPi[s] - pi[s,k]) * epsEvVec[e]. -/
lemma offdiag_col_unnorm (I : Inputs V E D K) (e : Fin E) (k : Fin K) :
    ∑ l ∈ Finset.univ.erase k, respN_unnorm I e l k =
      expElogPi I (I.data.rcv e) k *
        (sumexpElogPi I (I.data.src e) - expElogPi I (I.data.src e) k) *
        epsEvVec I e := by
  have h : ∀ l ∈ Finset.univ.erase k, respN_unnorm I e l k =
      expElogPi I (I.data.rcv e) k * epsEvVec I e *
        expElogPi I (I.data.src e) l := by
    intro l hl
    rw [respN_unnorm_offdiag I e (Finset.ne_of_mem_erase hl)]
    ring
  rw [Finset.sum_congr rfl h, ← Finset.mul_sum,
    Finset.sum_erase_eq_sub (Finset.mem_univ k)]
  unfold sumexpElogPi
  ring

/-- Each entry of the source-side background matrix of lines 130-132 equals
the off-diagonal row mass of the normalized naive tensor. -/
lemma srcresp_bg_eq_naive (I : Inputs V E D K) (e : Fin E) (k : Fin K) :
    srcresp_bg I e k = ∑ l ∈ Finset.univ.erase k, respN I e k l := by
  have h1 : ∑ l ∈ Finset.univ.erase k, respN I e k l =
      (∑ l ∈ Finset.univ.erase k, respN_unnorm I e k l) / respNormConstN I e := by
    rw [Finset.sum_div]
    rfl
  rw [h1, offdiag_row_unnorm, respNormConstN_eq]
  unfold srcresp_bg epsEvN expElogPi_bg
  ring

/-- Each entry of the receiver-side background matrix of lines 133-135
equals the off-diagonal column mass of the normalized naive tensor. -/
lemma rcvresp_bg_eq_naive (I : Inputs V E D K) (e : Fin E) (k : Fin K) :
    rcvresp_bg I e k = ∑ l ∈ Finset.univ.erase k, respN I e l k := by
  have h1 : ∑ l ∈ Finset.univ.erase k, respN I e l k =
      (∑ l ∈ Finset.univ.erase k, respN_unnorm I e l k) / respNormConstN I e := by
    rw [Finset.sum_div]
    rfl
  rw [h1, offdiag_col_unnorm, respNormConstN_eq]
  unfold rcvresp_bg epsEvN expElogPi_bg
  ring

lemma respNormConstN_pos [NeZero K] (I : Inputs V E D K) (e : Fin E) :
    0 < respNormConstN I e := by
  rw [respNormConstN_eq]
  exact respNormConst_pos I e

/-- Total mass of the normalized naive tensor is one per edge. -/
lemma respN_total [NeZero K] (I : Inputs V E D K) (e : Fin E) :
    ∑ k, ∑ l, respN I e k l = 1 := by
  have h : ∑ k, ∑ l, respN I e k l =
      respNormConstN I e / respNormConstN I e := by
    unfold respN respNormConstN
    rw [Finset.sum_div]
    exact Finset.sum_congr rfl fun k _ => by rw [Finset.sum_div]
  rw [h, div_self (respNormConstN_pos I e).ne']

/-- When the 1e-100 floor is inactive on edge e, the background
responsibility of lines 120-121 equals the total off-diagonal mass of the
normalized naive tensor. -/
lemma resp_bg_eq_naive [NeZero K] (I : Inputs V E D K) (e : Fin E)
    (h : ∀ k, (1e-100 : ℝ) ≤ respUnnorm I e k / respNormConst I e) :
    resp_bg I e = ∑ k, ∑ l ∈ Finset.univ.erase k, respN I e k l := by
  have hsplit : ∀ k : Fin K, ∑ l ∈ Finset.univ.erase k, respN I e k l =
      (∑ l, respN I e k l) - respN I e k k :=
    fun k => Finset.sum_erase_eq_sub (Finset.mem_univ k)
  rw [Finset.sum_congr rfl fun k _ => hsplit k, Finset.sum_sub_distrib,
    respN_total]
  unfold resp_bg
  congr 1
  refine Finset.sum_congr rfl fun k _ => ?_
  rw [respN_diag]
  exact max_eq_left (h k)

/-- Swapping the order of summation over off-diagonal index pairs. -/
lemma sum_erase_swap {K : ℕ} (f : Fin K → Fin K → ℝ) :
    ∑ k, ∑ l ∈ Finset.univ.erase k, f k l =
      ∑ l, ∑ k ∈ Finset.univ.erase l, f k l := by
  have h1 : ∀ k : Fin K, ∑ l ∈ Finset.univ.erase k, f k l =
      (∑ l, f k l) - f k k :=
    fun k => Finset.sum_erase_eq_sub (Finset.mem_univ k)
  have h2 : ∀ l : Fin K, ∑ k ∈ Finset.univ.erase l, f k l =
      (∑ k, f k l) - f l l :=
    fun l => Finset.sum_erase_eq_sub (Finset.mem_univ l)
  rw [Finset.sum_congr rfl fun k _ => h1 k,
    Finset.sum_congr rfl fun l _ => h2 l,
    Finset.sum_sub_distrib, Finset.sum_sub_distrib, Finset.sum_comm]

/-- Logarithm of an off-diagonal cell of the normalized naive tensor. -/
lemma log_respN_offdiag [NeZero K] (I : Inputs V E D K) (e : Fin E)
    {k l : Fin K} (hkl : k ≠ l) :
    Real.log (respN I e k l) =
      I.ElogPi (I.data.src e) k + I.ElogPi (I.data.rcv e) l +
        logepsEvVec I e - Real.log (respNormConst I e) := by
  unfold respN respN_unnorm
  rw [if_neg hkl, respNormConstN_eq,
    Real.log_div (Real.exp_ne_zero _) (respNormConst_pos I e).ne',
    Real.log_exp]

/-! ### C7: the hot-path assert on Lentropy_fg -/

/-- C7.  The np.allclose assertion of line 158 compares the alternative
derivation of the per-community foreground entropy (lines 154-157) with the
direct x*log(x) computation of line 152.  Whenever the 1e-100 floor of line
116 is inactive on column k (which holds for all inputs that do not
underflow the floor), the two derivations are exactly equal, so the
assertion passes. -/
theorem C7_Lentropy_fg_identity (I : Inputs V E D K) (k : Fin K)
    (h : ∀ e, (1e-100 : ℝ) ≤ respUnnorm I e k / respNormConst I e) :
    Lentropy_fg_alt I k = Lentropy_fg I k := by
  haveI : NeZero K := ⟨(Fin.pos k).ne'⟩
  have hlogx : ∀ e, Real.log (resp I e k) =
      I.ElogPi (I.data.src e) k + I.ElogPi (I.data.rcv e) k + I.slev e k -
        Real.log (respNormConst I e) := by
    intro e
    have hr : resp I e k = respUnnorm I e k / respNormConst I e :=
      max_eq_left (h e)
    rw [hr]
    unfold respUnnorm
    rw [Real.log_div (Real.exp_ne_zero _) (respNormConst_pos I e).ne',
      Real.log_exp]
  unfold Lentropy_fg_alt Lentropy_fg calcRlogR
  have hw : ∑ v, NodeStateCount_fg I v k * I.ElogPi v k =
      (∑ e, resp I e k * I.ElogPi (I.data.src e) k) +
        ∑ e, resp I e k * I.ElogPi (I.data.rcv e) k := by
    unfold NodeStateCount_fg
    simp only [add_mul, Finset.sum_add_distrib]
    rw [srcMatMul_weight, rcvMatMul_weight]
  rw [hw]
  have hd : ∑ e, resp I e k * Real.log (resp I e k) =
      ((∑ e, resp I e k * I.ElogPi (I.data.src e) k) +
        ∑ e, resp I e k * I.ElogPi (I.data.rcv e) k) +
      (∑ e, resp I e k * I.slev e k) -
      ∑ e, Real.log (respNormConst I e) * resp I e k := by
    have hterm : ∀ e, resp I e k * Real.log (resp I e k) =
        resp I e k * I.ElogPi (I.data.src e) k +
        resp I e k * I.ElogPi (I.data.rcv e) k +
        resp I e k * I.slev e k -
        Real.log (respNormConst I e) * resp I e k := by
      intro e
      rw [hlogx e]
      ring
    rw [Finset.sum_congr rfl fun e _ => hterm e]
    simp only [Finset.sum_add_distrib, Finset.sum_sub_distrib]
  rw [hd]
  ring

/-- C7 witness: on the concrete symmetric input Isym the floor is inactive
on column 0 and the two entropy derivations coincide. -/
theorem C7_Lentropy_fg_identity_witness :
    (∀ e, (1e-100 : ℝ) ≤ respUnnorm Isym e 0 / respNormConst Isym e) ∧
    Lentropy_fg_alt Isym 0 = Lentropy_fg Isym 0 := by
  have h : ∀ e : Fin 1,
      (1e-100 : ℝ) ≤ respUnnorm Isym e 0 / respNormConst Isym e := by
    intro e
    have he : e = 0 := Subsingleton.elim e 0
    rw [he, Isym_ratio]
    norm_num
  exact ⟨h, C7_Lentropy_fg_identity Isym 0 h⟩

/-! ### C2: the closed-form background entropy -/

/-- Spec-side definition (refinement target of C2): the entropy obtained by
summing -r*log(r) over every off-diagonal (k,l) cell of the uncollapsed
E x K x K responsibility tensor of the naive oracle. -/
def naiveEntropy_bg (I : Inputs V E D K) : ℝ :=
  ∑ e, ∑ k, ∑ l ∈ Finset.univ.erase k,
    -(respN I e k l * Real.log (respN I e k l))

/-- Per-edge expansion of the off-diagonal entropy of the naive tensor into
the collapsed quantities of the reduced algorithm. -/
lemma offdiag_entropy_edge [NeZero K] (I : Inputs V E D K) (e : Fin E)
    (h : ∀ k, (1e-100 : ℝ) ≤ respUnnorm I e k / respNormConst I e) :
    ∑ k, ∑ l ∈ Finset.univ.erase k,
        respN I e k l * Real.log (respN I e k l) =
      (∑ k, srcresp_bg I e k * I.ElogPi (I.data.src e) k) +
      (∑ k, rcvresp_bg I e k * I.ElogPi (I.data.rcv e) k) +
      resp_bg I e * logepsEvVec I e -
      Real.log (respNormConst I e) * resp_bg I e := by
  have hterm : ∀ k : Fin K, ∀ l ∈ Finset.univ.erase k,
      respN I e k l * Real.log (respN I e k l) =
        respN I e k l * I.ElogPi (I.data.src e) k +
        respN I e k l * I.ElogPi (I.data.rcv e) l +
        respN I e k l * logepsEvVec I e -
        respN I e k l * Real.log (respNormConst I e) := by
    intro k l hl
    rw [log_respN_offdiag I e (Finset.ne_of_mem_erase hl).symm]
    ring
  rw [Finset.sum_congr rfl fun k _ => Finset.sum_congr rfl (hterm k)]
  simp only [Finset.sum_add_distrib, Finset.sum_sub_distrib]
  have p1 : ∑ k, ∑ l ∈ Finset.univ.erase k,
      respN I e k l * I.ElogPi (I.data.src e) k =
      ∑ k, srcresp_bg I e k * I.ElogPi (I.data.src e) k := by
    refine Finset.sum_congr rfl fun k _ => ?_
    rw [← Finset.sum_mul, ← srcresp_bg_eq_naive]
  have p2 : ∑ k, ∑ l ∈ Finset.univ.erase k,
      respN I e k l * I.ElogPi (I.data.rcv e) l =
      ∑ k, rcvresp_bg I e k * I.ElogPi (I.data.rcv e) k := by
    rw [sum_erase_swap (fun k l => respN I e k l * I.ElogPi (I.data.rcv e) l)]
    refine Finset.sum_congr rfl fun l _ => ?_
    rw [← Finset.sum_mul, ← rcvresp_bg_eq_naive]
  have p3 : ∑ k, ∑ l ∈ Finset.univ.erase k,
      respN I e k l * logepsEvVec I e =
      resp_bg I e * logepsEvVec I e := by
    rw [resp_bg_eq_naive I e h, Finset.sum_mul]
    refine Finset.sum_congr rfl fun k _ => ?_
    rw [Finset.sum_mul]
  have p4 : ∑ k, ∑ l ∈ Finset.univ.erase k,
      respN I e k l * Real.log (respNormConst I e) =
      Real.log (respNormConst I e) * resp_bg I e := by
    rw [resp_bg_eq_naive I e h, Finset.mul_sum]
    refine Finset.sum_congr rfl fun k _ => ?_
    rw [Finset.mul_sum]
    exact Finset.sum_congr rfl fun l _ => mul_comm _ _
  rw [p1, p2, p3, p4]

/-- C2.  Whenever K is at least one and the 1e-100 floor of line 116 is
inactive, the scalar Lentropy_bg computed in closed form on lines 172-175
equals (exactly, hence within 1e-6) the entropy obtained by summing
-r*log(r) over every off-diagonal (k,l) cell of the per-edge K x K
responsibility tensor of the naive oracle, without materializing those
cells. -/
theorem C2_Lentropy_bg_identity (I : Inputs V E D K) (hK : 0 < K)
    (h : ∀ e k, (1e-100 : ℝ) ≤ respUnnorm I e k / respNormConst I e) :
    Lentropy_bg I = naiveEntropy_bg I ∧
      |Lentropy_bg I - naiveEntropy_bg I| ≤ 1e-6 := by
  haveI : NeZero K := ⟨hK.ne'⟩
  have hmain : Lentropy_bg I = naiveEntropy_bg I := by
    have hn : naiveEntropy_bg I =
        -∑ e, ((∑ k, srcresp_bg I e k * I.ElogPi (I.data.src e) k) +
          (∑ k, rcvresp_bg I e k * I.ElogPi (I.data.rcv e) k) +
          resp_bg I e * logepsEvVec I e -
          Real.log (respNormConst I e) * resp_bg I e) := by
      unfold naiveEntropy_bg
      simp only [Finset.sum_neg_distrib]
      congr 1
      exact Finset.sum_congr rfl fun e _ => offdiag_entropy_edge I e (h e)
    have hw : ∑ v, ∑ k, NodeStateCount_bg I v k * I.ElogPi v k =
        (∑ e, ∑ k, srcresp_bg I e k * I.ElogPi (I.data.src e) k) +
        ∑ e, ∑ k, rcvresp_bg I e k * I.ElogPi (I.data.rcv e) k := by
      unfold NodeStateCount_bg
      simp only [add_mul, Finset.sum_add_distrib]
      congr 1
      · rw [Finset.sum_comm,
          Finset.sum_congr rfl fun k _ =>
            srcMatMul_weight I.data (srcresp_bg I) I.ElogPi k]
        exact Finset.sum_comm
      · rw [Finset.sum_comm,
          Finset.sum_congr rfl fun k _ =>
            rcvMatMul_weight I.data (rcvresp_bg I) I.ElogPi k]
        exact Finset.sum_comm
    have hl : Lentropy_bg I =
        -((∑ e, ∑ k, srcresp_bg I e k * I.ElogPi (I.data.src e) k) +
          ∑ e, ∑ k, rcvresp_bg I e k * I.ElogPi (I.data.rcv e) k) +
        -(∑ e, resp_bg I e * logepsEvVec I e) +
        ∑ e, Real.log (respNormConst I e) * resp_bg I e := by
      unfold Lentropy_bg Ldata_bg
      rw [hw]
    rw [hl, hn]
    simp only [Finset.sum_add_distrib, Finset.sum_sub_distrib]
    ring
  refine ⟨hmain, ?_⟩
  rw [hmain, sub_self, abs_zero]
  norm_num

/-- C2 witness: on the concrete symmetric input Isym (K = 2, floor
inactive) the closed-form background entropy equals the naive off-diagonal
entropy. -/
theorem C2_Lentropy_bg_identity_witness :
    (0 < 2) ∧
    (∀ (e : Fin 1) (k : Fin 2),
      (1e-100 : ℝ) ≤ respUnnorm Isym e k / respNormConst Isym e) ∧
    Lentropy_bg Isym = naiveEntropy_bg Isym := by
  have h : ∀ (e : Fin 1) (k : Fin 2),
      (1e-100 : ℝ) ≤ respUnnorm Isym e k / respNormConst Isym e := by
    intro e k
    have he : e = 0 := Subsingleton.elim e 0
    rw [he, Isym_ratio]
    norm_num
  exact ⟨by norm_num, h, (C2_Lentropy_bg_identity Isym (by norm_num) h).1⟩

/-! ### The LP bundle, sufficient statistics and the evidence assembler -/

/-- Local parameter bundle written by calc_local_params (the LP dict fields
set on lines 117, 121, 145, 146, 150, 152, 172). -/
structure LPBundle (V E K : ℕ) where
  resp : Fin E → Fin K → ℝ
  resp_bg : Fin E → ℝ
  NodeStateCount : Fin V → Fin K → ℝ
  N_fg : Fin K → ℝ
  Ldata_bg : ℝ
  Lentropy_fg : Fin K → ℝ
  Lentropy_bg : ℝ

/-- Lines 65-176: calc_local_params assembled as a single function from the
input bundle to the LP bundle. -/
def calc_local_params (I : Inputs V E D K) : LPBundle V E K where
  resp := resp I
  resp_bg := resp_bg I
  NodeStateCount := NodeStateCount I
  N_fg := N_fg I
  Ldata_bg := Ldata_bg I
  Lentropy_fg := Lentropy_fg I
  Lentropy_bg := Lentropy_bg I

/-- Sufficient-statistics bag (SuffStatBag) as filled by
get_global_suff_stats: the three always-present fields of lines 226-232 and
the optional ELBO terms of lines 234-242 (an absent term is none). -/
structure SuffStatBag (V K : ℕ) where
  NodeStateCount : Fin V → Fin K → ℝ
  N : Fin K → ℝ
  scaleFactor : ℝ
  Ldata_bg : Option ℝ
  Hresp : Option (Fin K → ℝ)
  Hresp_bg : Option ℝ

/-- Lines 211-245: get_global_suff_stats on an LP bundle produced by
calc_local_params (which always carries Ldata_bg, line 234); the entropy
ELBO terms Hresp and Hresp_bg are cached only when doPrecompEntropy is
requested (lines 237-242). -/
def get_global_suff_stats (Data : GraphData V E D) (LP : LPBundle V E K)
    (doPrecompEntropy : Bool) : SuffStatBag V K where
  NodeStateCount := LP.NodeStateCount
  N := LP.N_fg
  scaleFactor := (E : ℝ)
  Ldata_bg := some LP.Ldata_bg
  Hresp := if doPrecompEntropy then some LP.Lentropy_fg else none
  Hresp_bg := if doPrecompEntropy then some LP.Lentropy_bg else none

/-- Lines 274-283: L_entropy(LP) = Lentropy_fg.sum() + Lentropy_bg. -/
def L_entropy (LP : LPBundle V E K) : ℝ :=
  (∑ k, LP.Lentropy_fg k) + LP.Lentropy_bg

/-- Lines 248-272: calc_evidence.  Lalloc and Lslack are supplied by the
parent allocation model (L_alloc_no_slack and L_slack live in FiniteMMSB,
outside this file) and enter both code paths identically, so they are taken
as opaque real parameters.  The entropy term is read from the SS bag when
the Hresp ELBO term was precomputed and is otherwise recomputed from LP via
L_entropy; Ldata_bg is likewise read from SS when present. -/
def calc_evidence (SS : SuffStatBag V K) (LP : LPBundle V E K)
    (Lalloc Lslack : ℝ) : ℝ :=
  let Lentropy : ℝ :=
    match SS.Hresp with
    | some H => (∑ k, H k) + SS.Hresp_bg.getD 0
    | none => L_entropy LP
  let Lbgdata : ℝ :=
    match SS.Ldata_bg with
    | some x => x
    | none => LP.Ldata_bg
  Lalloc + Lentropy + Lslack + Lbgdata

/-- C5.  For the same underlying local parameters, calc_evidence produces
the same scalar via either path: (a) reading the precomputed ELBO terms
cached in the sufficient-statistics bag built with doPrecompEntropy, or
(b) recomputing the entropy directly from LP via L_entropy on the bag built
without precomputation.  The two paths agree exactly (hence within 1e-8),
for every allocation and slack term supplied by the parent model. -/
theorem C5_evidence_path_equivalence (I : Inputs V E D K)
    (Lalloc Lslack : ℝ) :
    calc_evidence (get_global_suff_stats I.data (calc_local_params I) true)
        (calc_local_params I) Lalloc Lslack =
      calc_evidence (get_global_suff_stats I.data (calc_local_params I) false)
        (calc_local_params I) Lalloc Lslack := by
  simp [calc_evidence, get_global_suff_stats, calc_local_params, L_entropy]

/-- C6.  The background count contributions of calc_local_params follow the
collapsed closed forms: srcresp_bg[e,k] = (bgLik[e]/Z[e]) * pi[s,k] *
(sumPi[t] - pi[t,k]), symmetrically rcvresp_bg with s and t swapped; they
are aggregated through the source and receiver incidence operators into
NodeStateCount_bg; NodeStateCount_fg is the incidence-weighted sum of resp;
and the returned NodeStateCount is their sum. -/
theorem C6_NodeStateCount_formula (I : Inputs V E D K) :
    (∀ (e : Fin E) (k : Fin K), srcresp_bg I e k =
      epsEvVec I e / respNormConst I e * expElogPi I (I.data.src e) k *
        (sumexpElogPi I (I.data.rcv e) - expElogPi I (I.data.rcv e) k)) ∧
    (∀ (e : Fin E) (k : Fin K), rcvresp_bg I e k =
      epsEvVec I e / respNormConst I e * expElogPi I (I.data.rcv e) k *
        (sumexpElogPi I (I.data.src e) - expElogPi I (I.data.src e) k)) ∧
    (∀ (v : Fin V) (k : Fin K), NodeStateCount_bg I v k =
      srcMatMul I.data (srcresp_bg I) v k +
        rcvMatMul I.data (rcvresp_bg I) v k) ∧
    (∀ (v : Fin V) (k : Fin K), NodeStateCount_fg I v k =
      srcMatMul I.data (resp I) v k + rcvMatMul I.data (resp I) v k) ∧
    (∀ (v : Fin V) (k : Fin K), NodeStateCount I v k =
      NodeStateCount_fg I v k + NodeStateCount_bg I v k) :=
  ⟨fun _ _ => rfl, fun _ _ => rfl, fun _ _ => rfl, fun _ _ => rfl,
    fun _ _ => add_comm _ _⟩

/-! ### C8: the expected log mixture engine -/

/-- Digamma function: the derivative of the log of the Gamma function, the
function named digamma in bnpy.util. -/
def digamma (x : ℝ) : ℝ :=
  deriv (fun y => Real.log (Real.Gamma y)) x

/-- Lines 54-63: E_logPi computes digamma(theta) minus the digamma of the
per-row sums, broadcast across each row. -/
def E_logPi (theta : Fin V → Fin K → ℝ) (v : Fin V) (k : Fin K) : ℝ :=
  digamma (theta v k) - digamma (∑ j, theta v j)

/-- C8.  For every theta matrix with all entries strictly positive, E_logPi
returns the V x K matrix whose (v,k) entry is digamma(theta[v,k]) minus
digamma of the row sum of theta over row v; being a pure function of theta,
it has no side effects. -/
theorem C8_E_logPi_formula (theta : Fin V → Fin K → ℝ)
    (htheta : ∀ v k, 0 < theta v k) (v : Fin V) (k : Fin K) :
    E_logPi theta v k = digamma (theta v k) - digamma (∑ j, theta v j) :=
  rfl

/-- Concrete all-ones theta matrix for the C8 witness. -/
def thetaOne : Fin 1 → Fin 1 → ℝ := fun _ _ => 1

/-- C8 witness: the positivity precondition holds for the all-ones theta
and the entrywise formula evaluates there. -/
theorem C8_E_logPi_formula_witness :
    (∀ (v k : Fin 1), 0 < thetaOne v k) ∧
    E_logPi thetaOne 0 0 = digamma (thetaOne 0 0) - digamma (∑ j, thetaOne 0 j) :=
  ⟨fun _ _ => one_pos, C8_E_logPi_formula thetaOne (fun _ _ => one_pos) 0 0⟩

/-! ### C9: calc_local_params mutates nothing but LP -/

/-- The method call self.calc_local_params(Data, LP) with the heap made
explicit: the method reads Data, self.theta and self.epsilon, computes
ElogPi = self.E_logPi() (line 82), and writes only LP fields; every
in-place numpy operation in the body (lines 96, 115, 116, 128) targets an
array allocated inside the call.  The state-passing embedding therefore
returns the data, theta and epsilon components unchanged alongside the
fresh LP bundle. -/
def calc_local_params_method (Data : GraphData V E D)
    (theta : Fin V → Fin K → ℝ) (eps : ℝ) (slev : Fin E → Fin K → ℝ) :
    GraphData V E D × (Fin V → Fin K → ℝ) × ℝ × LPBundle V E K :=
  (Data, theta, eps,
    calc_local_params
      { data := Data, ElogPi := E_logPi theta, eps := eps, slev := slev })

/-- C9.  calc_local_params never mutates the Data object, the theta matrix
or epsilon: in the state-passing embedding the dataset (edge list,
observation matrix and the incidence operators it determines), theta and
epsilon components of the post-call state are identical to the inputs; only
the LP bundle is produced. -/
theorem C9_no_mutation (Data : GraphData V E D)
    (theta : Fin V → Fin K → ℝ) (eps : ℝ) (slev : Fin E → Fin K → ℝ) :
    (calc_local_params_method Data theta eps slev).1 = Data ∧
    (calc_local_params_method Data theta eps slev).2.1 = theta ∧
    (calc_local_params_method Data theta eps slev).2.2.1 = eps :=
  ⟨rfl, rfl, rfl⟩

/-! ### C10: initLPFromResp -/

/-- Result bundle of initLPFromResp (lines 179-208): the fields it writes. -/
structure InitLP (V E K : ℕ) where
  resp : Fin E → Fin K → ℝ
  NodeStateCount : Fin V → Fin K → ℝ
  N_fg : Fin K → ℝ

/-- Lines 185-191 and 202-207: the 2-D branch of initLPFromResp, taken when
LP[resp] is an E x K array accompanied by a resp_bg vector (which is only
shape-checked, line 189); NodeStateCount_bg is the scalar 0.0 (line 190),
so NodeStateCount = 0 + nodeMat * resp. -/
def initLPFromResp2D (Data : GraphData V E D) (resp : Fin E → Fin K → ℝ)
    (resp_bg : Fin E → ℝ) : InitLP V E K where
  resp := resp
  NodeStateCount := fun v k =>
    0 + (srcMatMul Data resp v k + rcvMatMul Data resp v k)
  N_fg := fun k => ∑ v, (srcMatMul Data resp v k + rcvMatMul Data resp v k)

/-- Lines 192-207: the 3-D branch of initLPFromResp, taken when LP[resp] is
a full E x K x K tensor: the foreground resp is the diagonal, srcresp_bg is
the axis-2 row sum minus the diagonal, rcvresp_bg the axis-1 column sum
minus the diagonal, and NodeStateCount reconstructs the background split. -/
def initLPFromResp3D (Data : GraphData V E D)
    (resp : Fin E → Fin K → Fin K → ℝ) : InitLP V E K where
  resp := fun e k => resp e k k
  NodeStateCount := fun v k =>
    (srcMatMul Data (fun e k => (∑ l, resp e k l) - resp e k k) v k +
      rcvMatMul Data (fun e k => (∑ l, resp e l k) - resp e k k) v k) +
    (srcMatMul Data (fun e k => resp e k k) v k +
      rcvMatMul Data (fun e k => resp e k k) v k)
  N_fg := fun k => ∑ v,
    (srcMatMul Data (fun e k => resp e k k) v k +
      rcvMatMul Data (fun e k => resp e k k) v k)

/-- C10 (implicit).  When initLPFromResp receives a 2-D (E x K) resp with a
resp_bg vector, the background contribution to the node counts is exactly
zero: the returned NodeStateCount equals the foreground incidence-weighted
sum nodeMat * resp alone, for every value of resp_bg (two different
background vectors yield identical counts); the background split is
reconstructed only in the 3-D branch, where NodeStateCount additionally
aggregates the off-diagonal row and column masses of the tensor. -/
theorem C10_initLPFromResp_background :
    (∀ (Data : GraphData V E D) (resp : Fin E → Fin K → ℝ)
        (bg1 bg2 : Fin E → ℝ) (v : Fin V) (k : Fin K),
      (initLPFromResp2D Data resp bg1).NodeStateCount v k =
        srcMatMul Data resp v k + rcvMatMul Data resp v k ∧
      (initLPFromResp2D Data resp bg1).NodeStateCount v k =
        (initLPFromResp2D Data resp bg2).NodeStateCount v k) ∧
    (∀ (Data : GraphData V E D) (resp : Fin E → Fin K → Fin K → ℝ)
        (v : Fin V) (k : Fin K),
      (initLPFromResp3D Data resp).NodeStateCount v k =
        (srcMatMul Data (fun e k => (∑ l, resp e k l) - resp e k k) v k +
          rcvMatMul Data (fun e k => (∑ l, resp e l k) - resp e k k) v k) +
        (srcMatMul Data (fun e k => resp e k k) v k +
          rcvMatMul Data (fun e k => resp e k k) v k)) :=
  ⟨fun _ _ _ _ _ _ => ⟨zero_add _, rfl⟩, fun _ _ _ _ => rfl⟩

end AMMSB
